import Mathlib

/-!
# gdrive-exporter: the name sanitizer, the tree walker and the authorization flow

A shallow embedding of `cmd/exporter/main.go` and of
`internal/drive_auth/drive_auth.go`.

Go strings are modelled as `List Char`.  Every character the code compares
with (`<`, `>`, `:`, `"`, `/`, `\`, `|`, `?`, `*`, the space, the dot) is
ASCII, and an ASCII byte never occurs inside a multi-byte UTF-8 sequence, so
on the strings the program handles (names decoded from JSON) the byte-wise
Go operations and the character-wise ones below agree.
-/

namespace GDriveExporter

/-! ## Name sanitizer (`cleanName`, main.go 124-131) -/

/-- Go `strings.ReplaceAll(s, old, new)` for a non-empty `old`, scanning left
to right: `skip` counts the characters of an occurrence of `old` that was just
replaced and still has to be passed over (occurrences do not overlap). -/
def replaceFrom (old new : List Char) : Nat → List Char → List Char
  | _, [] => []
  | skip + 1, _ :: cs => replaceFrom old new skip cs
  | 0, c :: cs =>
    if old.isPrefixOf (c :: cs) then new ++ replaceFrom old new (old.length - 1) cs
    else c :: replaceFrom old new 0 cs

/-- Go `strings.ReplaceAll(s, old, new)`.  With an empty `old` Go puts `new`
in front of every character and at the end. -/
def replaceAll (s old new : List Char) : List Char :=
  if old = [] then new ++ s.flatMap (fun c => c :: new)
  else replaceFrom old new 0 s

/-- Go `strings.TrimLeft` with a one-byte cutset (`trimLeftByte`). -/
def trimLeftByte (s : List Char) (c : Char) : List Char :=
  s.dropWhile (fun x => x == c)

/-- Go `strings.TrimRight` with a one-byte cutset (`trimRightByte`). -/
def trimRightByte (s : List Char) (c : Char) : List Char :=
  s.rdropWhile (fun x => x == c)

/-- Go `strings.Trim(s, cutset)` for the cutsets of one ASCII character, the
only ones the program uses: `trimLeftByte(trimRightByte(s, c), c)`. -/
def trim (s : List Char) (c : Char) : List Char :=
  trimLeftByte (trimRightByte s c) c

/-- The `forbiddenChars` slice of `cleanName`, in the order of the source. -/
def forbiddenChars : List (List Char) :=
  [['<'], ['>'], [':'], ['"'], ['/'], ['\\'], ['|'], ['?'], ['*']]

/-- The source function `cleanName`: every forbidden string is replaced by `_`,
one after the other, and the result is trimmed of spaces at both ends. -/
def cleanName (name : List Char) : List Char :=
  trim (forbiddenChars.foldl (fun name char => replaceAll name char ['_']) name) ' '

/-! ## Go `path` package (`path.Clean`, `path.Join`), as used by `downloadAll` -/

/-- The backtracking of a `..` element in `path.Clean`, started after the first
`out.w--`: `for out.w > dotdot && out.index(out.w) != '/' { out.w-- }`.  The
argument and the result are the write index `out.w`. -/
def backtrack (out : List Char) (dotdot : Nat) : Nat → Nat
  | 0 => 0
  | w + 1 =>
    if w + 1 > dotdot ∧ out.get? (w + 1) ≠ some '/' then backtrack out dotdot w
    else w + 1

/-- One iteration of the loop `for r < n` of `path.Clean`: the `switch` on
`path[r]`.  `c :: rest` is the unread part `path[r:]`; the state is the written
buffer `out` (its length is `out.w`) and `dotdot`.  The result is the unread
part after the iteration and the new state. -/
def cleanStep (rooted : Bool) (c : Char) (rest : List Char) (st : List Char × Nat) :
    List Char × (List Char × Nat) :=
  let out := st.1
  let dotdot := st.2
  if c = '/' then
    -- empty path element
    (rest, (out, dotdot))
  else if c = '.' ∧ (rest = [] ∨ rest.head? = some '/') then
    -- . element
    (rest, (out, dotdot))
  else if c = '.' ∧ rest.head? = some '.' ∧
      (rest.tail = [] ∨ rest.tail.head? = some '/') then
    -- .. element: remove to last /
    if out.length > dotdot then
      -- can backtrack
      (rest.tail, (out.take (backtrack out dotdot (out.length - 1)), dotdot))
    else if !rooted then
      -- cannot backtrack, but not rooted, so append .. element
      let out1 := (if out.length > 0 then out ++ ['/'] else out) ++ ['.', '.']
      (rest.tail, (out1, out1.length))
    else
      (rest.tail, (out, dotdot))
  else
    -- real path element: add slash if needed, copy element
    let out1 :=
      if (rooted && out.length != 1) || (!rooted && out.length != 0) then out ++ ['/']
      else out
    ((c :: rest).dropWhile (fun x => x != '/'),
      (out1 ++ (c :: rest).takeWhile (fun x => x != '/'), dotdot))

/-- The loop `for r < n` of `path.Clean`.  Every iteration reads at least one
character, so a fuel of `n` iterations is never exhausted (`cleanLoop_fuel`). -/
def cleanLoop (rooted : Bool) : Nat → List Char → List Char × Nat → List Char × Nat
  | 0, _, st => st
  | _ + 1, [], st => st
  | fuel + 1, c :: rest, st =>
    cleanLoop rooted fuel (cleanStep rooted c rest st).1 (cleanStep rooted c rest st).2

/-- Go `path.Clean`. -/
def path.Clean (p : List Char) : List Char :=
  if p = [] then ['.']
  else
    let out :=
      if p.head? = some '/' then (cleanLoop true p.length p.tail (['/'], 1)).1
      else (cleanLoop false p.length p ([], 0)).1
    if out.length = 0 then ['.'] else out

/-- Go `path.Join`: the non-empty elements (and the empty ones after a
non-empty one) joined by `/`, then cleaned; the empty string when all elements
are empty. -/
def path.Join (elem : List (List Char)) : List Char :=
  if (elem.map List.length).sum = 0 then []
  else
    path.Clean (elem.foldl
      (fun buf e =>
        if buf.length > 0 ∨ e ≠ [] then (if buf.length > 0 then buf ++ ['/'] else buf) ++ e
        else buf) [])

/-! ## Tree walker (`downloadAll`, `downloadDocument`, main.go 62-152)

The walker talks to two collaborators, the remote API and the local
filesystem.  Their answers are data of the model: a `Folder` holds what
`os.MkdirAll` answers for the folder's directory and what the paged listing of
the folder yields, a `Child` holds one listed file together with the answers to
every call the walker can make while it processes that file.  The walker is
sequential and deterministic, so every terminating run against any remote
(stateful or not) reads its answers off one such tree.

What the walker does is recorded as the list of calls it makes, in order, each
with its success flag.  The progress lines written with `fmt.Printf` are not
part of the trace. -/

/-- The fields of `drive.File` that the walker reads. -/
structure File where
  Id : List Char
  Name : List Char
  MimeType : List Char
  deriving DecidableEq

/-- The answers to the calls of `downloadDocument` for one file: the body
returned by `srv.Files.Export(id, mime).Download()` (`none`: the call failed),
whether `os.Create` succeeds, and whether `f.ReadFrom` and `f.Close` both
succeed. -/
structure DocAnswer where
  body : Option (List Nat)
  createOk : Bool
  writeOk : Bool
  deriving DecidableEq

mutual
/-- The answers to one call of `downloadAll`: whether `os.MkdirAll` succeeds,
and the paged listing. -/
inductive Folder where
  | mk (mkdirOk : Bool) (listing : Listing)
/-- The answers to the page requests (`c.Do()`) of one `Pages` call: the request
fails, or it yields a page of files and either no `NextPageToken` (`none`) or
a token, with the answers to the following requests. -/
inductive Listing where
  | fail
  | page (files : List Child) (next : Option Listing)
/-- One listed file with the answers used while it is processed: `doc` when it
is exported, `dir` when it is a folder that is descended into. -/
inductive Child where
  | mk (file : File) (doc : DocAnswer) (dir : Folder)
end

/-- A call made by the walker, with its success flag. -/
inductive Event where
  /-- The call `os.MkdirAll(path, 0755)`. -/
  | mkdirAll (path : List Char) (ok : Bool)
  /-- One page request of the listing of the children of `folderId`. -/
  | list (folderId : List Char) (ok : Bool)
  /-- The call `srv.Files.Export(id, mime).Download()`. -/
  | export (id mime : List Char) (ok : Bool)
  /-- The call `os.Create(path)` (create or truncate). -/
  | create (path : List Char) (ok : Bool)
  /-- Writing the export body `data` to the file and closing it. -/
  | write (path : List Char) (data : List Nat) (ok : Bool)
  deriving DecidableEq

/-- The success flag of a call. -/
def Event.ok : Event → Bool
  | .mkdirAll _ ok => ok
  | .list _ ok => ok
  | .export _ _ ok => ok
  | .create _ ok => ok
  | .write _ _ ok => ok

/-- The error values of the walker, by the place that makes them. -/
inductive Err where
  /-- Made by `"Unable to create download directory: %v"`. -/
  | createDir
  /-- The error of a failed page request, as `Pages` returns it. -/
  | listing
  /-- Made by `"unable to download file: %v"`. -/
  | download
  /-- Made by `"unable to create file: %v"`. -/
  | createFile
  /-- Made by `"unable to write file: %v, %v"`. -/
  | writeFile
  deriving DecidableEq

/-- How a call of the walker ends: it returns `nil` (`returned none`) or an
error to its caller, or the process is terminated by `log.Fatalf` (which
calls `os.Exit(1)`) before the call returns. -/
inductive Outcome where
  | returned (err : Option Err)
  | exited
  deriving DecidableEq

/-- The MIME type of a Drive folder. -/
def folderType : List Char := "application/vnd.google-apps.folder".toList

/-- The MIME type of a Google document. -/
def documentType : List Char := "application/vnd.google-apps.document".toList

/-- The MIME type of a Google spreadsheet. -/
def spreadsheetType : List Char := "application/vnd.google-apps.spreadsheet".toList

/-- The MIME type of a Google presentation. -/
def presentationType : List Char := "application/vnd.google-apps.presentation".toList

/-- The export MIME type of a `.docx` file. -/
def docxMime : List Char :=
  "application/vnd.openxmlformats-officedocument.wordprocessingml.document".toList

/-- The export MIME type of a `.xlsx` file. -/
def xlsxMime : List Char :=
  "application/vnd.openxmlformats-officedocument.spreadsheetml.sheet".toList

/-- The export MIME type of a `.pptx` file. -/
def pptxMime : List Char :=
  "application/vnd.openxmlformats-officedocument.presentationml.presentation".toList

/-- The source function `downloadDocument`: export, create the file, write the
body; the first failing call ends it with that call's error. -/
def downloadDocument (id name exportMimeType : List Char) (w : DocAnswer) :
    List Event × Option Err :=
  match w.body with
  | none => ([.export id exportMimeType false], some .download)
  | some body =>
    if !w.createOk then
      ([.export id exportMimeType true, .create name false], some .createFile)
    else if !w.writeOk then
      ([.export id exportMimeType true, .create name true, .write name body false],
        some .writeFile)
    else
      ([.export id exportMimeType true, .create name true, .write name body true], none)

mutual
/-- The source function `downloadAll`.  A failed `os.MkdirAll` is returned as an
error; an error that comes back from `Pages` reaches `log.Fatalf` (line 118),
which terminates the process; otherwise `nil` is returned. -/
def downloadAll (downloadId destinationPath : List Char) : Folder → List Event × Outcome
  | .mk mkdirOk listing =>
    if !mkdirOk then
      ([.mkdirAll destinationPath false], .returned (some .createDir))
    else
      let r := Pages downloadId destinationPath listing
      match r.2 with
      | .returned none => (.mkdirAll destinationPath true :: r.1, .returned none)
      | .returned (some _) => (.mkdirAll destinationPath true :: r.1, .exited)
      | .exited => (.mkdirAll destinationPath true :: r.1, .exited)
/-- The library loop `FilesListCall.Pages`: request a page, hand it to the
callback, stop on the first error or when there is no next page token. -/
def Pages (downloadId destinationPath : List Char) : Listing → List Event × Outcome
  | .fail => ([.list downloadId false], .returned (some .listing))
  | .page files next =>
    let r := callback destinationPath files
    match r.2 with
    | .returned none =>
      match next with
      | none => (.list downloadId true :: r.1, .returned none)
      | some l =>
        let r2 := Pages downloadId destinationPath l
        (.list downloadId true :: (r.1 ++ r2.1), r2.2)
    | .returned (some e) => (.list downloadId true :: r.1, .returned (some e))
    | .exited => (.list downloadId true :: r.1, .exited)
/-- The function literal handed to `Pages` (lines 77-116): the loop over
`r.Files`, left with `return err` at the first file that fails. -/
def callback (destinationPath : List Char) : List Child → List Event × Outcome
  | [] => ([], .returned none)
  | i :: rest =>
    let r := processFile destinationPath i
    match r.2 with
    | .returned none =>
      let r2 := callback destinationPath rest
      (r.1 ++ r2.1, r2.2)
    | .returned (some e) => (r.1, .returned (some e))
    | .exited => (r.1, .exited)
/-- The body of the loop over `r.Files` (lines 79-113) for one file `i`: the
chain of comparisons of `i.MimeType`. -/
def processFile (destinationPath : List Char) : Child → List Event × Outcome
  | .mk i doc dir =>
    if i.MimeType = folderType then
      downloadAll i.Id (path.Join [destinationPath, cleanName i.Name]) dir
    else if i.MimeType = documentType then
      let r := downloadDocument i.Id
        (path.Join [destinationPath, cleanName i.Name ++ ".docx".toList]) docxMime doc
      (r.1, .returned r.2)
    else if i.MimeType = spreadsheetType then
      let r := downloadDocument i.Id
        (path.Join [destinationPath, cleanName i.Name ++ ".xlsx".toList]) xlsxMime doc
      (r.1, .returned r.2)
    else if i.MimeType = presentationType then
      let r := downloadDocument i.Id
        (path.Join [destinationPath, cleanName i.Name ++ ".pptx".toList]) pptxMime doc
      (r.1, .returned r.2)
    else
      ([], .returned none)
end

/-! ## Authorization flow (`GetService`, `getTokenFromWeb`, drive_auth.go)

The flow is modelled along the main routine.  The listener, the browser, the
HTTP server with its handler and supervising goroutine, the token endpoint and
the token file are collaborators whose answers are data of the model
(`AuthWorld`); what the main routine does is recorded as the list of its
calls. -/

/-- The part of `oauth2.Token` the model keeps. -/
structure Token where
  AccessToken : List Char
  deriving DecidableEq

/-- How `srv.Serve(listener)` comes back to the main routine.  The supervising
goroutine calls `srv.Shutdown` after a receive on `done` or after `ctx.Done()`,
and `Serve` then returns `http.ErrServerClosed`. -/
inductive ServeEnd where
  /-- The handler saw a request with a `code` parameter, stored its value in
  `authCode` and signalled `done`. -/
  | codeReceived (code : List Char)
  /-- The context was cancelled before any request with a `code` parameter
  arrived: the handler never assigned `authCode`. -/
  | cancelled
  /-- The call `Serve` returned an error other than `http.ErrServerClosed`. -/
  | failed
  deriving DecidableEq

/-- The answers of the collaborators of the authorization flow. -/
structure AuthWorld where
  /-- Whether `os.ReadFile(clientSecretPath)` succeeds. -/
  secretOk : Bool
  /-- Whether `google.ConfigFromJSON` succeeds. -/
  configOk : Bool
  /-- The result of `getTokenFromFile(tokFile)`; `none` for any error. -/
  cached : Option Token
  /-- Whether `lc.Listen(ctx, "tcp", ":0")` succeeds. -/
  listenOk : Bool
  /-- Whether `browser.OpenURL(authURL)` succeeds. -/
  browserOk : Bool
  /-- How `srv.Serve(listener)` comes back. -/
  serve : ServeEnd
  /-- The result of `config.Exchange(ctx, code)`; `none` for an error. -/
  exchange : List Char → Option Token
  /-- Whether `saveTokenToFile` succeeds. -/
  saveOk : Bool
  /-- Whether `drive.NewService` succeeds. -/
  serviceOk : Bool

/-- A call made by the main routine of the authorization flow. -/
inductive AuthEvent where
  | readSecret (ok : Bool)
  | readTokenFile (file : List Char) (ok : Bool)
  | listen (ok : Bool)
  | openBrowser (ok : Bool)
  | serve
  /-- The call `config.Exchange(ctx, code)`. -/
  | exchange (code : List Char) (ok : Bool)
  /-- The call `saveTokenToFile(file, tok)`. -/
  | saveToken (file : List Char) (tok : Token) (ok : Bool)
  deriving DecidableEq

/-- The error values of the authorization flow, by the message that makes
them. -/
inductive AuthErr where
  /-- Made by `"unable to read client secret file: %v"`. -/
  | readSecret
  /-- Made by `"unable to parse client secret file to config: %v"`. -/
  | parseSecret
  /-- Made by `"unable to start listener: %v"`. -/
  | startListener
  /-- Made by `"unable to open browser: %v"`. -/
  | openBrowser
  /-- Made by `"unable to start server: %v"`. -/
  | startServer
  /-- Made by `"unable to exchange auth code for token: %v"`. -/
  | exchangeCode
  /-- Made by `"unable to get token from web: %v"`. -/
  | tokenFromWeb
  /-- Made by `"unable to save token: %v"`. -/
  | saveToken
  /-- Made by `"unable to retrieve Drive client: %v"`. -/
  | driveClient
  deriving DecidableEq

/-- The source function `getTokenFromWeb`.  The variable `authCode` starts
empty and is assigned only by the handler; after `Serve` has come back with
`http.ErrServerClosed` the code is exchanged, whatever ended the server. -/
def getTokenFromWeb (w : AuthWorld) : List AuthEvent × Except AuthErr Token :=
  if !w.listenOk then ([.listen false], .error .startListener)
  else
    -- var authCode string
    let authCode : List Char :=
      match w.serve with
      | .codeReceived code => code
      | _ => []
    if !w.browserOk then ([.listen true, .openBrowser false], .error .openBrowser)
    else
      match w.serve with
      | .failed => ([.listen true, .openBrowser true, .serve], .error .startServer)
      | _ =>
        -- with the auth code received, exchange it for a token
        match w.exchange authCode with
        | none =>
          ([.listen true, .openBrowser true, .serve, .exchange authCode false],
            .error .exchangeCode)
        | some tok =>
          ([.listen true, .openBrowser true, .serve, .exchange authCode true], .ok tok)

/-- The source function `GetService`, up to the token it builds the client
from. -/
def GetService (w : AuthWorld) (clientTokenPath : List Char) (forReading forWriting : Bool) :
    List AuthEvent × Except AuthErr Token :=
  if !w.secretOk then ([.readSecret false], .error .readSecret)
  else if !w.configOk then ([.readSecret true], .error .parseSecret)
  else
    let tokFile := path.Join [clientTokenPath, "token-".toList]
      ++ (if forReading then ['r'] else [])
      ++ (if forWriting then ['w'] else [])
      ++ ".json".toList
    match w.cached with
    | some tok =>
      ([.readSecret true, .readTokenFile tokFile true],
        if w.serviceOk then .ok tok else .error .driveClient)
    | none =>
      let r := getTokenFromWeb w
      match r.2 with
      | .error _ =>
        (.readSecret true :: .readTokenFile tokFile false :: r.1, .error .tokenFromWeb)
      | .ok tok =>
        if !w.saveOk then
          (.readSecret true :: .readTokenFile tokFile false
            :: (r.1 ++ [.saveToken tokFile tok false]), .error .saveToken)
        else
          (.readSecret true :: .readTokenFile tokFile false
            :: (r.1 ++ [.saveToken tokFile tok true]),
            if w.serviceOk then .ok tok else .error .driveClient)

/-- No token is cached, the listener and the browser start, and the context
is cancelled before any request with a code arrives; the token endpoint
answers no exchange (the context of the exchange is the cancelled one). -/
def cancelledWorld : AuthWorld where
  secretOk := true
  configOk := true
  cached := none
  listenOk := true
  browserOk := true
  serve := .cancelled
  exchange := fun _ => none
  saveOk := true
  serviceOk := true

/-! ## Definitions used to state and prove the properties -/

/-- The character-wise effect of replacing the one-character string `c` by
`_`. -/
def subst (c x : Char) : Char := if x = c then '_' else x

/-- The nine forbidden characters, as characters. -/
def forbidden : List Char := ['<', '>', ':', '"', '/', '\\', '|', '?', '*']

/-- The state after a `..` element of `path.Clean`. -/
def dotdotState (rooted : Bool) (st : List Char × Nat) : List Char × Nat :=
  if st.1.length > st.2 then
    (st.1.take (backtrack st.1 st.2 (st.1.length - 1)), st.2)
  else if !rooted then
    ((if st.1.length > 0 then st.1 ++ ['/'] else st.1) ++ ['.', '.'],
      ((if st.1.length > 0 then st.1 ++ ['/'] else st.1) ++ ['.', '.']).length)
  else st

/-- The buffer after `add slash if needed` of `path.Clean`. -/
def withSlash (rooted : Bool) (out : List Char) : List Char :=
  if (rooted && out.length != 1) || (!rooted && out.length != 0) then out ++ ['/'] else out

/-- The condition of the `.` case of `path.Clean`. -/
def isDot (c : Char) (rest : List Char) : Prop :=
  c = '.' ∧ (rest = [] ∨ rest.head? = some '/')

/-- The condition of the `..` case of `path.Clean`. -/
def isDotDot (c : Char) (rest : List Char) : Prop :=
  c = '.' ∧ rest.head? = some '.' ∧ (rest.tail = [] ∨ rest.tail.head? = some '/')

/-- The loop of `path.Clean` run over the whole of `rest`. -/
def cleanRun (rooted : Bool) (rest : List Char) (st : List Char × Nat) : List Char × Nat :=
  cleanLoop rooted rest.length rest st

/-- The invariant of the buffer of `path.Clean` on a rooted path: it starts
with the leading slash, which `..` never removes. -/
def RootedInv (st : List Char × Nat) : Prop :=
  st.1.head? = some '/' ∧ 1 ≤ st.2

/-- The invariant of the buffer of `path.Clean` on a path that is not rooted:
it does not start with a slash, its first element is not `.`, and `dotdot` is
never 1 (it is 0 or the length of a prefix ending in `..`). -/
def UnrootedInv (st : List Char × Nat) : Prop :=
  st.1.head? ≠ some '/' ∧ st.2 ≠ 1 ∧ st.1 ≠ ['.'] ∧ ∀ t, st.1 ≠ '.' :: '/' :: t

/-- Every call of the trace succeeded. -/
def AllOk (t : List Event) : Prop := ∀ e ∈ t, e.ok = true

/-- A failed call is the last call of the trace. -/
def FailsLast (t : List Event) : Prop :=
  ∀ (pre : List Event) (e : Event) (post : List Event),
    t = pre ++ e :: post → e.ok = false → post = []

/-- The trace ends with a failed call. -/
def EndsFailed (t : List Event) : Prop :=
  ∃ (pre : List Event) (e : Event), t = pre ++ [e] ∧ e.ok = false

/-- The invariant of a run: a run that returns `nil` made only successful
calls, in every run a failed call is the last call, and a run that does not
return `nil` ends with a failed call. -/
def RunInv (r : List Event × Outcome) : Prop :=
  (r.2 = .returned none → AllOk r.1) ∧ FailsLast r.1 ∧
    (r.2 ≠ .returned none → EndsFailed r.1)

/-- Whether a call is an export. -/
def Event.isExport : Event → Bool
  | .export _ _ _ => true
  | _ => false

/-- The answers of an empty folder whose directory can be made. -/
def emptyDir : Folder := .mk true (.page [] none)

/-- Answers that are never asked for. -/
def noDoc : DocAnswer := ⟨none, false, false⟩

/-- A root holding the sub-folder `Reports` (empty) and the document `Q1 Plan`,
whose export yields the bytes 80, 75, 3, 4. -/
def reportsWorld : Folder :=
  .mk true (.page
    [.mk ⟨"f1".toList, "Reports".toList, folderType⟩ noDoc emptyDir,
     .mk ⟨"d1".toList, "Q1 Plan".toList, documentType⟩ ⟨some [80, 75, 3, 4], true, true⟩
       emptyDir] none)

/-- The document `one`, whose export fails. -/
def docOne : Child :=
  .mk ⟨"d1".toList, "one".toList, documentType⟩ ⟨none, true, true⟩ emptyDir

/-- The document `two`, whose export yields one byte. -/
def docTwo : Child :=
  .mk ⟨"d2".toList, "two".toList, documentType⟩ ⟨some [1], true, true⟩ emptyDir

/-- A root with two pages.  The first holds the folder `A` (documents `one`,
whose export fails, and `two`) and the spreadsheet `three`; the second holds
the presentation `four`. -/
def failingWorld : Folder :=
  .mk true (.page
    [.mk ⟨"fa".toList, "A".toList, folderType⟩ noDoc
       (.mk true (.page [docOne, docTwo] none)),
     .mk ⟨"d3".toList, "three".toList, spreadsheetType⟩ ⟨some [2], true, true⟩ emptyDir]
    (some (.page
      [.mk ⟨"d4".toList, "four".toList, presentationType⟩ ⟨some [3], true, true⟩ emptyDir]
      none)))

/-- A root whose single document cannot be exported. -/
def exportFailWorld : Folder :=
  .mk true (.page [docOne] none)

/-- A file of a type the walker does not know, with answers that would make
every call on it fail. -/
def pdfChild : Child :=
  .mk ⟨"p1".toList, "scan".toList, "application/pdf".toList⟩ noDoc (.mk false .fail)

/-- The document `B` of the ordering example. -/
def docB : Child :=
  .mk ⟨"db".toList, "DocB".toList, documentType⟩ ⟨some [7], true, true⟩ emptyDir

/-- The folder `FolderA` of the ordering example, holding one spreadsheet. -/
def folderA : Child :=
  .mk ⟨"fa".toList, "FolderA".toList, folderType⟩ noDoc
    (.mk true (.page
      [.mk ⟨"s1".toList, "sheet".toList, spreadsheetType⟩ ⟨some [9], true, true⟩ emptyDir]
      none))

/-- The three export branches of `downloadAll` as rows: the type tag compared
with, the extension appended to the cleaned name, the MIME type asked for. -/
def exportTable : List (List Char × List Char × List Char) :=
  [(documentType, ".docx".toList, docxMime),
   (spreadsheetType, ".xlsx".toList, xlsxMime),
   (presentationType, ".pptx".toList, pptxMime)]

/-! ## Theorems -/

/-! ### The name sanitizer -/

theorem replaceFrom_single (c : Char) (s : List Char) :
    replaceFrom [c] ['_'] 0 s = s.map (subst c) := by
  induction s with
  | nil => rfl
  | cons x xs ih =>
    by_cases h : x = c
    · subst h
      simp [replaceFrom, List.isPrefixOf, subst, ih]
    · have h2 : ¬ c = x := fun e => h e.symm
      simp [replaceFrom, List.isPrefixOf, subst, ih, h, h2]

theorem replaceAll_single (c : Char) (s : List Char) :
    replaceAll s [c] ['_'] = s.map (subst c) := by
  simp [replaceAll, replaceFrom_single]

theorem fold_replace_eq (ps : List Char) (s : List Char) :
    (ps.map (fun c => [c])).foldl (fun name char => replaceAll name char ['_']) s
      = ps.foldl (fun name c => name.map (subst c)) s := by
  induction ps generalizing s with
  | nil => rfl
  | cons c cs ih => simp only [List.map_cons, List.foldl_cons, replaceAll_single, ih]

theorem cleanName_eq (name : List Char) :
    cleanName name = trim (forbidden.foldl (fun name c => name.map (subst c)) name) ' ' := by
  have h : forbiddenChars = forbidden.map (fun c => [c]) := rfl
  rw [cleanName, h, fold_replace_eq]

theorem not_mem_map_subst (c d : Char) (s : List Char) (hd : d ≠ '_') (h : d ∉ s) :
    d ∉ s.map (subst c) := by
  intro hm
  obtain ⟨a, ha, e⟩ := List.mem_map.1 hm
  unfold subst at e
  split at e
  · exact hd e.symm
  · exact h (e ▸ ha)

theorem self_not_mem_map_subst (c : Char) (s : List Char) (hc : c ≠ '_') :
    c ∉ s.map (subst c) := by
  intro hm
  obtain ⟨a, ha, e⟩ := List.mem_map.1 hm
  unfold subst at e
  split at e
  · exact hc e.symm
  · rename_i hne
    exact hne e

theorem not_mem_fold_of_not_mem (ps : List Char) (d : Char) (hd : d ≠ '_') :
    ∀ s : List Char, d ∉ s → d ∉ ps.foldl (fun name c => name.map (subst c)) s := by
  induction ps with
  | nil => intro s h; exact h
  | cons c cs ih =>
    intro s h
    exact ih _ (not_mem_map_subst c d s hd h)

theorem not_mem_fold (ps : List Char) (d : Char) (hd : d ≠ '_') (hm : d ∈ ps) :
    ∀ s : List Char, d ∉ ps.foldl (fun name c => name.map (subst c)) s := by
  induction ps with
  | nil => cases hm
  | cons c cs ih =>
    intro s
    by_cases hdc : d = c
    · subst hdc
      exact not_mem_fold_of_not_mem cs d hd _ (self_not_mem_map_subst d s hd)
    · rcases List.mem_cons.1 hm with h | h
      · exact absurd h hdc
      · exact ih h _

theorem map_subst_of_not_mem (c : Char) (s : List Char) (h : c ∉ s) :
    s.map (subst c) = s := by
  induction s with
  | nil => rfl
  | cons x xs ih =>
    have hx : x ≠ c := fun e => h (e ▸ List.mem_cons_self _ _)
    have hxs : c ∉ xs := fun hm => h (List.mem_cons_of_mem _ hm)
    simp [subst, hx, ih hxs]

theorem fold_of_not_mem (ps : List Char) (s : List Char) (h : ∀ d ∈ ps, d ∉ s) :
    ps.foldl (fun name c => name.map (subst c)) s = s := by
  induction ps with
  | nil => rfl
  | cons c cs ih =>
    rw [List.foldl_cons, map_subst_of_not_mem c s (h c (List.mem_cons_self _ _))]
    exact ih (fun d hd => h d (List.mem_cons_of_mem _ hd))

theorem trim_subset (s : List Char) (c x : Char) (h : x ∈ trim s c) : x ∈ s := by
  unfold trim trimLeftByte trimRightByte at h
  exact (List.rdropWhile_prefix _ _).subset ((List.dropWhile_suffix _).subset h)

theorem forbidden_ne_underscore : ∀ d ∈ forbidden, d ≠ '_' := by decide

theorem cleanName_not_mem (name : List Char) (d : Char) (hd : d ∈ forbidden) :
    d ∉ cleanName name := by
  rw [cleanName_eq]
  intro hm
  exact not_mem_fold forbidden d (forbidden_ne_underscore d hd) hd name (trim_subset _ _ _ hm)

theorem trim_head (s : List Char) (c : Char) : (trim s c).head? ≠ some c := by
  unfold trim trimLeftByte
  intro h
  have := List.head?_dropWhile_not (fun x => x == c) (trimRightByte s c)
  rw [h] at this
  simp at this

theorem trim_getLast (s : List Char) (c : Char) : (trim s c).getLast? ≠ some c := by
  intro h
  have hne : trim s c ≠ [] := by
    intro e
    rw [e] at h
    simp at h
  have hsuf : trim s c <:+ trimRightByte s c := List.dropWhile_suffix _
  have hne2 : trimRightByte s c ≠ [] := by
    intro e
    rw [e] at hsuf
    exact hne (List.suffix_nil.1 hsuf)
  have h1 := hsuf.getLast hne
  have h2 := List.rdropWhile_last_not (fun x => x == c) s hne2
  rw [List.getLast?_eq_getLast _ hne] at h
  have h3 : (trim s c).getLast hne = c := Option.some.inj h
  apply h2
  show ((trimRightByte s c).getLast hne2 == c) = true
  rw [← h1, h3]
  simp

theorem trim_of_trimmed (s : List Char) (c : Char) (h1 : s.head? ≠ some c)
    (h2 : s.getLast? ≠ some c) : trim s c = s := by
  unfold trim trimLeftByte trimRightByte
  have e1 : s.rdropWhile (fun x => x == c) = s := by
    rw [List.rdropWhile_eq_self_iff]
    intro hl hp
    apply h2
    rw [List.getLast?_eq_getLast _ hl]
    simpa using hp
  rw [e1, List.dropWhile_eq_self_iff]
  intro hl hp
  apply h1
  cases s with
  | nil => simp at hl
  | cons x xs => simpa using hp

/-- C2: for every input string, `cleanName` returns a string that contains
none of the nine characters `<`, `>`, `:`, `"`, `/`, `\`, `|`, `?`, `*`. -/
theorem cleanName_no_forbidden_char (name : List Char) :
    '<' ∉ cleanName name ∧ '>' ∉ cleanName name ∧ ':' ∉ cleanName name ∧
    '"' ∉ cleanName name ∧ '/' ∉ cleanName name ∧ '\\' ∉ cleanName name ∧
    '|' ∉ cleanName name ∧ '?' ∉ cleanName name ∧ '*' ∉ cleanName name :=
  ⟨cleanName_not_mem name _ (by decide), cleanName_not_mem name _ (by decide),
    cleanName_not_mem name _ (by decide), cleanName_not_mem name _ (by decide),
    cleanName_not_mem name _ (by decide), cleanName_not_mem name _ (by decide),
    cleanName_not_mem name _ (by decide), cleanName_not_mem name _ (by decide),
    cleanName_not_mem name _ (by decide)⟩

/-- C3: for every input string, the result of `cleanName` has no leading and no
trailing space: its first character, if it has one, is not U+0020, and neither
is its last character (so the result is empty, or its first and its last
character both differ from U+0020). -/
theorem cleanName_no_outer_space (name : List Char) :
    (cleanName name).head? ≠ some ' ' ∧ (cleanName name).getLast? ≠ some ' ' :=
  ⟨trim_head _ _, trim_getLast _ _⟩

/-- C4: `cleanName` is idempotent: cleaning a cleaned name changes nothing. -/
theorem cleanName_idempotent (x : List Char) :
    cleanName (cleanName x) = cleanName x := by
  have hfold : forbidden.foldl (fun name c => name.map (subst c)) (cleanName x)
      = cleanName x :=
    fold_of_not_mem forbidden (cleanName x) (fun d hd => cleanName_not_mem x d hd)
  rw [cleanName_eq (cleanName x), hfold]
  exact trim_of_trimmed _ _ (trim_head _ _) (trim_getLast _ _)

/-! ### `path.Clean` and `path.Join` -/

theorem dropWhile_ne_slash_length (l : List Char) :
    (l.dropWhile (fun x => x != '/')).length ≤ l.length :=
  (List.dropWhile_suffix _).length_le

theorem dropWhile_cons_ne_slash (c : Char) (rest : List Char) (h : c ≠ '/') :
    (c :: rest).dropWhile (fun x => x != '/') = rest.dropWhile (fun x => x != '/') := by
  simp [List.dropWhile_cons, h]

theorem takeWhile_cons_ne_slash (c : Char) (rest : List Char) (h : c ≠ '/') :
    (c :: rest).takeWhile (fun x => x != '/') = c :: rest.takeWhile (fun x => x != '/') := by
  simp [List.takeWhile_cons, h]

theorem cleanStep_slash (rooted : Bool) (rest : List Char) (st : List Char × Nat) :
    cleanStep rooted '/' rest st = (rest, st) := by
  simp [cleanStep]

theorem cleanStep_dot (rooted : Bool) (c : Char) (rest : List Char) (st : List Char × Nat)
    (h1 : c ≠ '/') (h2 : isDot c rest) : cleanStep rooted c rest st = (rest, st) := by
  unfold isDot at h2
  unfold cleanStep
  dsimp only
  rw [if_neg h1, if_pos h2]

theorem cleanStep_dotdot (rooted : Bool) (c : Char) (rest : List Char) (st : List Char × Nat)
    (h1 : c ≠ '/') (h2 : ¬ isDot c rest) (h3 : isDotDot c rest) :
    cleanStep rooted c rest st = (rest.tail, dotdotState rooted st) := by
  unfold isDot at h2
  unfold isDotDot at h3
  unfold cleanStep dotdotState
  dsimp only
  rw [if_neg h1, if_neg h2, if_pos h3]
  split_ifs <;> rfl

theorem cleanStep_elem (rooted : Bool) (c : Char) (rest : List Char) (st : List Char × Nat)
    (h1 : c ≠ '/') (h2 : ¬ isDot c rest) (h3 : ¬ isDotDot c rest) :
    cleanStep rooted c rest st
      = ((c :: rest).dropWhile (fun x => x != '/'),
          (withSlash rooted st.1 ++ (c :: rest).takeWhile (fun x => x != '/'), st.2)) := by
  unfold isDot at h2
  unfold isDotDot at h3
  unfold cleanStep withSlash
  dsimp only
  rw [if_neg h1, if_neg h2, if_neg h3]

theorem cleanStep_length (rooted : Bool) (c : Char) (rest : List Char)
    (st : List Char × Nat) : (cleanStep rooted c rest st).1.length ≤ rest.length := by
  by_cases h1 : c = '/'
  · subst h1
    rw [cleanStep_slash]
  · by_cases h2 : isDot c rest
    · rw [cleanStep_dot rooted c rest st h1 h2]
    · by_cases h3 : isDotDot c rest
      · rw [cleanStep_dotdot rooted c rest st h1 h2 h3]
        simp
      · rw [cleanStep_elem rooted c rest st h1 h2 h3]
        show ((c :: rest).dropWhile (fun x => x != '/')).length ≤ rest.length
        rw [dropWhile_cons_ne_slash c rest h1]
        exact dropWhile_ne_slash_length rest

theorem cleanLoop_fuel (rooted : Bool) :
    ∀ (f1 f2 : Nat) (rest : List Char) (st : List Char × Nat),
      rest.length ≤ f1 → rest.length ≤ f2 →
      cleanLoop rooted f1 rest st = cleanLoop rooted f2 rest st := by
  intro f1
  induction f1 with
  | zero =>
    intro f2 rest st h1 _
    have : rest = [] := List.length_eq_zero.1 (Nat.le_zero.1 h1)
    subst this
    cases f2 <;> rfl
  | succ n ih =>
    intro f2 rest st h1 h2
    cases rest with
    | nil => cases f2 <;> rfl
    | cons c cs =>
      cases f2 with
      | zero => simp at h2
      | succ m =>
        simp only [cleanLoop]
        have hl := cleanStep_length rooted c cs st
        simp only [List.length_cons] at h1 h2
        exact ih m _ _ (by omega) (by omega)

theorem cleanRun_nil (rooted : Bool) (st : List Char × Nat) : cleanRun rooted [] st = st := rfl

theorem cleanRun_cons (rooted : Bool) (c : Char) (rest : List Char) (st : List Char × Nat) :
    cleanRun rooted (c :: rest) st
      = cleanRun rooted (cleanStep rooted c rest st).1 (cleanStep rooted c rest st).2 := by
  unfold cleanRun
  simp only [List.length_cons, cleanLoop]
  exact cleanLoop_fuel rooted _ _ _ _ (cleanStep_length rooted c rest st) (le_refl _)

theorem cleanLoop_eq_cleanRun (rooted : Bool) (fuel : Nat) (rest : List Char)
    (st : List Char × Nat) (h : rest.length ≤ fuel) :
    cleanLoop rooted fuel rest st = cleanRun rooted rest st :=
  cleanLoop_fuel rooted _ _ _ _ h (le_refl _)

theorem isDot_append (c : Char) (rest t : List Char) :
    isDot c (rest ++ '/' :: t) ↔ isDot c rest := by
  cases rest with
  | nil => simp [isDot]
  | cons x xs => simp [isDot]

theorem isDotDot_append (c : Char) (rest t : List Char) :
    isDotDot c (rest ++ '/' :: t) ↔ isDotDot c rest := by
  cases rest with
  | nil => simp [isDotDot]
  | cons x xs =>
    cases xs with
    | nil => simp [isDotDot]
    | cons y ys => simp [isDotDot]

theorem dropWhile_append_slash (l t : List Char) :
    (l ++ '/' :: t).dropWhile (fun x => x != '/')
      = l.dropWhile (fun x => x != '/') ++ '/' :: t := by
  induction l with
  | nil => simp [List.dropWhile_cons]
  | cons x xs ih =>
    by_cases hx : x = '/'
    · subst hx
      simp [List.dropWhile_cons]
    · rw [List.cons_append, dropWhile_cons_ne_slash x _ hx, dropWhile_cons_ne_slash x _ hx, ih]

theorem takeWhile_append_slash (l t : List Char) :
    (l ++ '/' :: t).takeWhile (fun x => x != '/') = l.takeWhile (fun x => x != '/') := by
  induction l with
  | nil => simp [List.takeWhile_cons]
  | cons x xs ih =>
    by_cases hx : x = '/'
    · subst hx
      simp [List.takeWhile_cons]
    · rw [List.cons_append, takeWhile_cons_ne_slash x _ hx, takeWhile_cons_ne_slash x _ hx, ih]

theorem cleanStep_append (rooted : Bool) (c : Char) (rest t : List Char)
    (st : List Char × Nat) :
    cleanStep rooted c (rest ++ '/' :: t) st
      = ((cleanStep rooted c rest st).1 ++ '/' :: t, (cleanStep rooted c rest st).2) := by
  by_cases h1 : c = '/'
  · subst h1
    rw [cleanStep_slash, cleanStep_slash]
  · by_cases h2 : isDot c rest
    · rw [cleanStep_dot rooted c rest st h1 h2,
        cleanStep_dot rooted c _ st h1 ((isDot_append c rest t).2 h2)]
    · have h2a : ¬ isDot c (rest ++ '/' :: t) := fun h => h2 ((isDot_append c rest t).1 h)
      by_cases h3 : isDotDot c rest
      · rw [cleanStep_dotdot rooted c rest st h1 h2 h3,
          cleanStep_dotdot rooted c _ st h1 h2a ((isDotDot_append c rest t).2 h3)]
        have hne : rest ≠ [] := by
          intro e
          rw [e] at h3
          simp [isDotDot] at h3
        cases rest with
        | nil => exact absurd rfl hne
        | cons x xs => rfl
      · have h3a : ¬ isDotDot c (rest ++ '/' :: t) :=
          fun h => h3 ((isDotDot_append c rest t).1 h)
        rw [cleanStep_elem rooted c rest st h1 h2 h3, cleanStep_elem rooted c _ st h1 h2a h3a]
        rw [← List.cons_append, dropWhile_append_slash, takeWhile_append_slash]

theorem cleanRun_append_slash (rooted : Bool) (t : List Char) :
    ∀ (n : Nat) (p : List Char), p.length ≤ n → ∀ st : List Char × Nat,
      cleanRun rooted (p ++ '/' :: t) st = cleanRun rooted t (cleanRun rooted p st) := by
  intro n
  induction n with
  | zero =>
    intro p hp st
    have : p = [] := List.length_eq_zero.1 (Nat.le_zero.1 hp)
    subst this
    rw [List.nil_append, cleanRun_cons, cleanStep_slash, cleanRun_nil]
  | succ n ih =>
    intro p hp st
    cases p with
    | nil => rw [List.nil_append, cleanRun_cons, cleanStep_slash, cleanRun_nil]
    | cons c rest =>
      rw [List.cons_append, cleanRun_cons, cleanStep_append, cleanRun_cons rooted c rest]
      have hl := cleanStep_length rooted c rest st
      simp only [List.length_cons] at hp
      exact ih _ (by omega) _

theorem cleanRun_element (rooted : Bool) (s : List Char) (st : List Char × Nat)
    (hne : s ≠ []) (hslash : '/' ∉ s) (hdot : s ≠ ['.']) (hdotdot : s ≠ ['.', '.']) :
    cleanRun rooted s st = (withSlash rooted st.1 ++ s, st.2) := by
  cases s with
  | nil => exact absurd rfl hne
  | cons c rest =>
    have h1 : c ≠ '/' := fun e => hslash (e ▸ List.mem_cons_self _ _)
    have hrest : '/' ∉ rest := fun h => hslash (List.mem_cons_of_mem _ h)
    have h2 : ¬ isDot c rest := by
      rintro ⟨rfl, h | h⟩
      · exact hdot (by rw [h])
      · cases rest with
        | nil => simp at h
        | cons x xs =>
          simp only [List.head?_cons, Option.some.injEq] at h
          exact hrest (h ▸ List.mem_cons_self _ _)
    have h3 : ¬ isDotDot c rest := by
      rintro ⟨rfl, ha, hb⟩
      cases rest with
      | nil => simp at ha
      | cons x xs =>
        simp only [List.head?_cons, Option.some.injEq] at ha
        subst ha
        rcases hb with hb | hb
        · simp only [List.tail_cons] at hb
          exact hdotdot (by rw [hb])
        · cases xs with
          | nil => simp at hb
          | cons y ys =>
            simp only [List.tail_cons, List.head?_cons, Option.some.injEq] at hb
            exact hslash (by rw [hb]; simp)
    have hall : ∀ x ∈ c :: rest, (fun x => x != '/') x = true := by
      intro x hx
      have : x ≠ '/' := fun e => hslash (e ▸ hx)
      simpa using this
    rw [cleanRun_cons, cleanStep_elem rooted c rest st h1 h2 h3]
    rw [List.dropWhile_eq_nil_iff.2 hall, List.takeWhile_eq_self_iff.2 hall, cleanRun_nil]

theorem backtrack_ge (out : List Char) (dotdot : Nat) :
    ∀ w : Nat, dotdot ≤ w → dotdot ≤ backtrack out dotdot w := by
  intro w
  induction w with
  | zero => intro h; simpa [backtrack] using h
  | succ n ih =>
    intro h
    unfold backtrack
    split_ifs with hc
    · exact ih (by omega)
    · exact h

theorem head?_append_of_head? (l m : List Char) (x : Char) (h : l.head? = some x) :
    (l ++ m).head? = some x := by
  cases l with
  | nil => simp at h
  | cons y ys => simpa using h

theorem head?_take_of_head? (l : List Char) (k : Nat) (x : Char) (hk : 1 ≤ k)
    (h : l.head? = some x) : (l.take k).head? = some x := by
  cases l with
  | nil => simp at h
  | cons y ys =>
    cases k with
    | zero => omega
    | succ m => simpa using h

theorem cleanStep_rootedInv (c : Char) (rest : List Char) (st : List Char × Nat)
    (h : RootedInv st) : RootedInv (cleanStep true c rest st).2 := by
  by_cases h1 : c = '/'
  · subst h1
    rw [cleanStep_slash]
    exact h
  · by_cases h2 : isDot c rest
    · rw [cleanStep_dot true c rest st h1 h2]
      exact h
    · by_cases h3 : isDotDot c rest
      · rw [cleanStep_dotdot true c rest st h1 h2 h3]
        show RootedInv (dotdotState true st)
        unfold dotdotState
        by_cases hlen : st.1.length > st.2
        · rw [if_pos hlen]
          refine ⟨?_, h.2⟩
          have hb := backtrack_ge st.1 st.2 (st.1.length - 1) (by omega)
          exact head?_take_of_head? _ _ _ (le_trans h.2 hb) h.1
        · rw [if_neg hlen]
          simp only [Bool.not_true, Bool.false_eq_true, if_false]
          exact h
      · rw [cleanStep_elem true c rest st h1 h2 h3]
        refine ⟨?_, h.2⟩
        show (withSlash true st.1 ++ _).head? = some '/'
        apply head?_append_of_head?
        unfold withSlash
        split_ifs
        · exact head?_append_of_head? _ _ _ h.1
        · exact h.1

theorem cleanRun_rootedInv :
    ∀ (n : Nat) (p : List Char), p.length ≤ n → ∀ st : List Char × Nat,
      RootedInv st → RootedInv (cleanRun true p st) := by
  intro n
  induction n with
  | zero =>
    intro p hp st h
    have : p = [] := List.length_eq_zero.1 (Nat.le_zero.1 hp)
    subst this
    exact h
  | succ n ih =>
    intro p hp st h
    cases p with
    | nil => exact h
    | cons c rest =>
      rw [cleanRun_cons]
      have hl := cleanStep_length true c rest st
      simp only [List.length_cons] at hp
      exact ih _ (by omega) _ (cleanStep_rootedInv c rest st h)

theorem backtrack_le (out : List Char) (dotdot : Nat) :
    ∀ w : Nat, backtrack out dotdot w ≤ w := by
  intro w
  induction w with
  | zero => simp [backtrack]
  | succ n ih =>
    unfold backtrack
    split_ifs
    · exact le_trans ih (Nat.le_succ n)
    · exact le_refl _

theorem backtrack_stop (out : List Char) (dotdot : Nat) :
    ∀ w : Nat, dotdot ≤ w →
      backtrack out dotdot w = dotdot ∨ out.get? (backtrack out dotdot w) = some '/' := by
  intro w
  induction w with
  | zero =>
    intro h
    left
    simp only [backtrack]
    omega
  | succ n ih =>
    intro h
    unfold backtrack
    split_ifs with hc
    · exact ih (by omega)
    · by_cases hgt : n + 1 > dotdot
      · right
        by_contra hne
        exact hc ⟨hgt, hne⟩
      · left
        omega

theorem take_unrootedInv (out : List Char) (dotdot k : Nat)
    (h : UnrootedInv (out, dotdot)) (hk : k < out.length)
    (hstop : k = dotdot ∨ out.get? k = some '/') : UnrootedInv (out.take k, dotdot) := by
  obtain ⟨h1, h2, h3, h4⟩ := h
  simp only at h1 h2 h3 h4
  refine ⟨?_, h2, ?_, ?_⟩
  · show (out.take k).head? ≠ some '/'
    cases out with
    | nil => simp
    | cons x xs =>
      cases k with
      | zero => simp
      | succ m => simpa using h1
  · show out.take k ≠ ['.']
    intro e
    cases out with
    | nil => simp at e
    | cons x xs =>
      cases k with
      | zero => simp at e
      | succ m =>
        simp only [List.take_succ_cons, List.cons.injEq, List.take_eq_nil_iff] at e
        obtain ⟨hx, hm⟩ := e
        subst hx
        rcases hm with hm | hm
        · subst hm
          rcases hstop with hs | hs
          · exact h2 hs.symm
          · cases xs with
            | nil => simp at hk
            | cons y ys =>
              simp only [zero_add, List.get?_cons_succ, List.get?_cons_zero,
                Option.some.injEq] at hs
              subst hs
              exact h4 ys rfl
        · subst hm
          simp at hk
  · intro t e
    show False
    cases out with
    | nil => simp at e
    | cons x xs =>
      cases k with
      | zero => simp at e
      | succ m =>
        cases xs with
        | nil => simp at e
        | cons y ys =>
          cases m with
          | zero => simp at e
          | succ j =>
            simp only [List.take_succ_cons, List.cons.injEq] at e
            obtain ⟨hx, hy, _⟩ := e
            subst hx
            subst hy
            exact h4 ys rfl

theorem append_unrootedInv (out tl : List Char) (dotdot dd2 : Nat)
    (h : UnrootedInv (out, dotdot)) (hne : out ≠ []) (hdd : dd2 ≠ 1) :
    UnrootedInv (out ++ '/' :: tl, dd2) := by
  obtain ⟨h1, _, h3, h4⟩ := h
  simp only at h1 h3 h4
  cases out with
  | nil => exact absurd rfl hne
  | cons x xs =>
    refine ⟨by simpa using h1, hdd, ?_, ?_⟩
    · show x :: xs ++ '/' :: tl ≠ ['.']
      simp
    · intro t e
      cases xs with
      | nil =>
        simp only [List.cons_append, List.nil_append, List.cons.injEq] at e
        exact h3 (by rw [e.1])
      | cons y ys =>
        simp only [List.cons_append, List.cons.injEq] at e
        exact h4 ys (by rw [e.1, e.2.1])

theorem cleanStep_unrootedInv (c : Char) (rest : List Char) (st : List Char × Nat)
    (h : UnrootedInv st) : UnrootedInv (cleanStep false c rest st).2 := by
  by_cases h1 : c = '/'
  · subst h1
    rw [cleanStep_slash]
    exact h
  · by_cases h2 : isDot c rest
    · rw [cleanStep_dot false c rest st h1 h2]
      exact h
    · by_cases h3 : isDotDot c rest
      · rw [cleanStep_dotdot false c rest st h1 h2 h3]
        show UnrootedInv (dotdotState false st)
        unfold dotdotState
        by_cases hlen : st.1.length > st.2
        · rw [if_pos hlen]
          have hle := backtrack_le st.1 st.2 (st.1.length - 1)
          exact take_unrootedInv st.1 st.2 _ h (by omega)
            (backtrack_stop st.1 st.2 (st.1.length - 1) (by omega))
        · rw [if_neg hlen]
          simp only [Bool.not_false, if_true]
          by_cases hpos : st.1.length > 0
          · rw [if_pos hpos]
            have hne : st.1 ≠ [] := List.length_pos.1 hpos
            have := append_unrootedInv st.1 ['.', '.'] st.2
              ((st.1 ++ ['/'] ++ ['.', '.']).length) h hne (by simp)
            simpa using this
          · rw [if_neg hpos]
            have hnil : st.1 = [] := List.length_eq_zero.1 (by omega)
            rw [hnil]
            refine ⟨by simp, by simp, by simp, ?_⟩
            intro t e
            simp at e
      · rw [cleanStep_elem false c rest st h1 h2 h3]
        rw [takeWhile_cons_ne_slash c rest h1]
        unfold withSlash
        by_cases hpos : st.1.length = 0
        · have hnil : st.1 = [] := List.length_eq_zero.1 hpos
          simp only [hnil, List.length_nil, Bool.false_and, Bool.not_false, bne_self_eq_false,
            Bool.and_false, Bool.or_self, Bool.false_eq_true, if_false, List.nil_append]
          refine ⟨by simpa using h1, h.2.1, ?_, ?_⟩
          · intro e
            simp only [List.cons.injEq, List.takeWhile_eq_nil_iff] at e
            obtain ⟨hc, hr⟩ := e
            apply h2
            refine ⟨hc, ?_⟩
            cases rest with
            | nil => left; rfl
            | cons y ys =>
              right
              have := hr (by simp)
              simpa using this
          · intro t e
            simp only [List.cons.injEq] at e
            obtain ⟨_, he⟩ := e
            have hmem : '/' ∈ rest.takeWhile (fun x => x != '/') := by
              rw [he]
              exact List.mem_cons_self _ _
            have := List.mem_takeWhile_imp hmem
            simp at this
        · have hne : st.1 ≠ [] := fun e => hpos (by rw [e]; rfl)
          have hb : (false && st.1.length != 1 || !false && st.1.length != 0) = true := by
            simpa using hpos
          rw [if_pos hb]
          have := append_unrootedInv st.1 (c :: rest.takeWhile (fun x => x != '/')) st.2 st.2
            h hne h.2.1
          simpa using this

theorem cleanRun_unrootedInv :
    ∀ (n : Nat) (p : List Char), p.length ≤ n → ∀ st : List Char × Nat,
      UnrootedInv st → UnrootedInv (cleanRun false p st) := by
  intro n
  induction n with
  | zero =>
    intro p hp st h
    have : p = [] := List.length_eq_zero.1 (Nat.le_zero.1 hp)
    subst this
    exact h
  | succ n ih =>
    intro p hp st h
    cases p with
    | nil => exact h
    | cons c rest =>
      rw [cleanRun_cons]
      have hl := cleanStep_length false c rest st
      simp only [List.length_cons] at hp
      exact ih _ (by omega) _ (cleanStep_unrootedInv c rest st h)

theorem path_Clean_rooted (d : List Char) :
    path.Clean ('/' :: d) = (cleanRun true d (['/'], 1)).1 := by
  have hinv := cleanRun_rootedInv d.length d (le_refl _) (['/'], 1) ⟨rfl, le_refl _⟩
  have hne : (cleanRun true d (['/'], 1)).1.length ≠ 0 := by
    intro e
    have := hinv.1
    rw [List.length_eq_zero.1 e] at this
    simp at this
  unfold path.Clean
  simp only [List.cons_ne_nil, if_false, List.head?_cons, if_true, List.tail_cons]
  rw [cleanLoop_eq_cleanRun true _ d _ (by simp), if_neg hne]

theorem path_Clean_unrooted (d : List Char) (hne : d ≠ []) (h : d.head? ≠ some '/') :
    path.Clean d = if (cleanRun false d ([], 0)).1.length = 0 then ['.']
      else (cleanRun false d ([], 0)).1 := by
  unfold path.Clean
  simp only [hne, if_false, h]
  rw [cleanLoop_eq_cleanRun false _ d _ (le_refl _)]

/-- Joining a directory `d` with one real path element `s` (non-empty, without
a slash, neither `.` nor `..`) appends exactly that element to the cleaned
directory: nothing is put in front of it when `d` cleans to `.`, the root slash
when `d` cleans to `/`, and the cleaned `d` with a slash otherwise. -/
theorem path_Join_element (d s : List Char)
    (hne : s ≠ []) (hslash : '/' ∉ s) (hdot : s ≠ ['.']) (hdotdot : s ≠ ['.', '.']) :
    path.Join [d, s]
      = (if path.Clean d = ['.'] then []
          else if path.Clean d = ['/'] then ['/']
          else path.Clean d ++ ['/']) ++ s := by
  have hlen : 0 < s.length := List.length_pos.2 hne
  have hs1 : s.head? ≠ some '/' := by
    cases s with
    | nil => simp
    | cons x xs =>
      simp only [List.head?_cons, ne_eq, Option.some.injEq]
      exact fun e => hslash (e ▸ List.mem_cons_self _ _)
  cases d with
  | nil =>
    have hj : path.Join [[], s] = path.Clean s := by
      unfold path.Join
      have : ¬ (List.map List.length [[], s]).sum = 0 := by
        simp only [List.map, List.sum_cons, List.sum_nil, List.length_nil]
        omega
      rw [if_neg this]
      simp [hne]
    have hc : path.Clean [] = ['.'] := rfl
    rw [hj, path_Clean_unrooted s hne hs1, cleanRun_element false s _ hne hslash hdot hdotdot,
      hc, if_pos rfl]
    simp [withSlash, hne]
  | cons c d1 =>
    have hj : path.Join [c :: d1, s] = path.Clean (c :: d1 ++ '/' :: s) := by
      unfold path.Join
      have : ¬ (List.map List.length [c :: d1, s]).sum = 0 := by simp
      rw [if_neg this]
      simp
    by_cases hc : c = '/'
    · subst hc
      have hinv := cleanRun_rootedInv d1.length d1 (le_refl _) (['/'], 1) ⟨rfl, le_refl _⟩
      rw [hj, List.cons_append, path_Clean_rooted, path_Clean_rooted,
        cleanRun_append_slash true s d1.length d1 (le_refl _),
        cleanRun_element true s _ hne hslash hdot hdotdot]
      generalize cleanRun true d1 (['/'], 1) = st at hinv
      obtain ⟨out, dd⟩ := st
      obtain ⟨hh, _⟩ := hinv
      simp only at hh
      cases out with
      | nil => simp at hh
      | cons x xs =>
        simp only [List.head?_cons, Option.some.injEq] at hh
        subst hh
        cases xs with
        | nil => simp [withSlash]
        | cons y ys => simp [withSlash]
    · have hd1 : (c :: d1).head? ≠ some '/' := by simpa using hc
      have hd2 : (c :: d1 ++ '/' :: s).head? ≠ some '/' := by simpa using hc
      have hinv := cleanRun_unrootedInv (c :: d1).length (c :: d1) (le_refl _) ([], 0)
        ⟨by simp, by simp, by simp, fun t => by simp⟩
      rw [hj, path_Clean_unrooted _ (by simp) hd2, path_Clean_unrooted _ (by simp) hd1,
        cleanRun_append_slash false s (c :: d1).length (c :: d1) (le_refl _),
        cleanRun_element false s _ hne hslash hdot hdotdot]
      generalize cleanRun false (c :: d1) ([], 0) = st at hinv
      obtain ⟨out, dd⟩ := st
      obtain ⟨i1, _, i3, _⟩ := hinv
      simp only at i1 i3
      cases out with
      | nil => simp [withSlash, hne]
      | cons x xs =>
        have hx : x ≠ '/' := by simpa using i1
        have h1 : ¬ (x :: xs = ['.']) := i3
        have h2 : ¬ (x :: xs = ['/']) := by
          intro e
          simp only [List.cons.injEq] at e
          exact hx e.1
        simp [withSlash, h1, h2]

/-! ### The tree walker -/

theorem allOk_nil : AllOk [] := fun _ h => by cases h

theorem allOk_cons (e : Event) (t : List Event) (he : e.ok = true) (ht : AllOk t) :
    AllOk (e :: t) := by
  intro x hx
  rcases List.mem_cons.1 hx with h | h
  · rw [h]; exact he
  · exact ht x h

theorem allOk_append (a b : List Event) (ha : AllOk a) (hb : AllOk b) : AllOk (a ++ b) := by
  intro x hx
  rcases List.mem_append.1 hx with h | h
  · exact ha x h
  · exact hb x h

theorem failsLast_nil : FailsLast [] := by
  intro pre e post h _
  cases pre <;> simp at h

theorem failsLast_singleton (e0 : Event) : FailsLast [e0] := by
  intro pre e post h _
  cases pre with
  | nil =>
    simp only [List.nil_append, List.cons.injEq] at h
    exact h.2.symm
  | cons x xs =>
    simp only [List.cons_append, List.cons.injEq] at h
    cases xs <;> simp at h

theorem failsLast_cons (e0 : Event) (t : List Event) (he : e0.ok = true)
    (ht : FailsLast t) : FailsLast (e0 :: t) := by
  intro pre e post h hf
  cases pre with
  | nil =>
    simp only [List.nil_append, List.cons.injEq] at h
    rw [h.1, hf] at he
    cases he
  | cons x xs =>
    simp only [List.cons_append, List.cons.injEq] at h
    exact ht xs e post h.2 hf

theorem failsLast_append (a b : List Event) (ha : AllOk a) (hb : FailsLast b) :
    FailsLast (a ++ b) := by
  induction a with
  | nil => exact hb
  | cons x xs ih =>
    exact failsLast_cons x _ (ha x (List.mem_cons_self _ _))
      (ih (fun e he => ha e (List.mem_cons_of_mem _ he)))

theorem endsFailed_singleton (e : Event) (h : e.ok = false) : EndsFailed [e] :=
  ⟨[], e, rfl, h⟩

theorem endsFailed_cons (x : Event) (t : List Event) (h : EndsFailed t) :
    EndsFailed (x :: t) := by
  obtain ⟨pre, e, ht, he⟩ := h
  exact ⟨x :: pre, e, by rw [ht]; rfl, he⟩

theorem endsFailed_append (a t : List Event) (h : EndsFailed t) : EndsFailed (a ++ t) := by
  obtain ⟨pre, e, ht, he⟩ := h
  exact ⟨a ++ pre, e, by rw [ht, List.append_assoc], he⟩

theorem downloadDocument_inv (id name mime : List Char) (w : DocAnswer) :
    RunInv ((downloadDocument id name mime w).1,
      Outcome.returned (downloadDocument id name mime w).2) := by
  unfold downloadDocument
  cases hb : w.body with
  | none =>
    refine ⟨fun h => ?_, failsLast_singleton _, fun _ => endsFailed_singleton _ rfl⟩
    simp at h
  | some body =>
    simp only
    split_ifs with h1 h2
    · refine ⟨fun h => ?_, failsLast_cons _ _ rfl (failsLast_singleton _),
        fun _ => endsFailed_cons _ _ (endsFailed_singleton _ rfl)⟩
      simp at h
    · refine ⟨fun h => ?_,
        failsLast_cons _ _ rfl (failsLast_cons _ _ rfl (failsLast_singleton _)),
        fun _ => endsFailed_cons _ _ (endsFailed_cons _ _ (endsFailed_singleton _ rfl))⟩
      simp at h
    · refine ⟨fun _ => ?_,
        failsLast_cons _ _ rfl (failsLast_cons _ _ rfl (failsLast_singleton _)),
        fun h => absurd rfl h⟩
      exact allOk_cons _ _ rfl (allOk_cons _ _ rfl (allOk_cons _ _ rfl allOk_nil))

mutual
theorem downloadAll_inv (id d : List Char) : ∀ w : Folder, RunInv (downloadAll id d w)
  | .mk mkdirOk listing => by
    have ih := Pages_inv id d listing
    rw [downloadAll]
    cases mkdirOk with
    | false =>
      refine ⟨fun h => ?_, failsLast_singleton _, fun _ => endsFailed_singleton _ rfl⟩
      simp at h
    | true =>
      simp only [Bool.not_true, Bool.false_eq_true, if_false]
      split
      · rename_i h
        exact ⟨fun _ => allOk_cons _ _ rfl (ih.1 h), failsLast_cons _ _ rfl ih.2.1,
          fun h2 => absurd rfl h2⟩
      · rename_i e h
        refine ⟨fun h => ?_, failsLast_cons _ _ rfl ih.2.1,
          fun _ => endsFailed_cons _ _ (ih.2.2 (by rw [h]; simp))⟩
        simp at h
      · rename_i h
        refine ⟨fun h => ?_, failsLast_cons _ _ rfl ih.2.1,
          fun _ => endsFailed_cons _ _ (ih.2.2 (by rw [h]; simp))⟩
        simp at h
theorem Pages_inv (id d : List Char) : ∀ l : Listing, RunInv (Pages id d l)
  | .fail => by
    rw [Pages]
    refine ⟨fun h => ?_, failsLast_singleton _, fun _ => endsFailed_singleton _ rfl⟩
    simp at h
  | .page files none => by
    have ih := callback_inv d files
    rw [Pages]
    split
    · rename_i h
      exact ⟨fun _ => allOk_cons _ _ rfl (ih.1 h), failsLast_cons _ _ rfl ih.2.1,
        fun h2 => absurd rfl h2⟩
    · rename_i e h
      refine ⟨fun h => ?_, failsLast_cons _ _ rfl ih.2.1,
        fun _ => endsFailed_cons _ _ (ih.2.2 (by rw [h]; simp))⟩
      simp at h
    · rename_i h
      refine ⟨fun h => ?_, failsLast_cons _ _ rfl ih.2.1,
        fun _ => endsFailed_cons _ _ (ih.2.2 (by rw [h]; simp))⟩
      simp at h
  | .page files (some l) => by
    have ih := callback_inv d files
    have ih2 := Pages_inv id d l
    rw [Pages]
    split
    · rename_i h
      exact ⟨fun h2 => allOk_cons _ _ rfl (allOk_append _ _ (ih.1 h) (ih2.1 h2)),
        failsLast_cons _ _ rfl (failsLast_append _ _ (ih.1 h) ih2.2.1),
        fun h2 => endsFailed_cons _ _ (endsFailed_append _ _ (ih2.2.2 h2))⟩
    · rename_i e h
      refine ⟨fun h => ?_, failsLast_cons _ _ rfl ih.2.1,
        fun _ => endsFailed_cons _ _ (ih.2.2 (by rw [h]; simp))⟩
      simp at h
    · rename_i h
      refine ⟨fun h => ?_, failsLast_cons _ _ rfl ih.2.1,
        fun _ => endsFailed_cons _ _ (ih.2.2 (by rw [h]; simp))⟩
      simp at h
theorem callback_inv (d : List Char) : ∀ cs : List Child, RunInv (callback d cs)
  | [] => by
    rw [callback]
    exact ⟨fun _ => allOk_nil, failsLast_nil, fun h => absurd rfl h⟩
  | c :: cs => by
    have ih := processFile_inv d c
    have ih2 := callback_inv d cs
    rw [callback]
    split
    · rename_i h
      exact ⟨fun h2 => allOk_append _ _ (ih.1 h) (ih2.1 h2),
        failsLast_append _ _ (ih.1 h) ih2.2.1,
        fun h2 => endsFailed_append _ _ (ih2.2.2 h2)⟩
    · rename_i e h
      refine ⟨fun h => ?_, ih.2.1, fun _ => ih.2.2 (by rw [h]; simp)⟩
      simp at h
    · rename_i h
      refine ⟨fun h => ?_, ih.2.1, fun _ => ih.2.2 (by rw [h]; simp)⟩
      simp at h
theorem processFile_inv (d : List Char) : ∀ c : Child, RunInv (processFile d c)
  | .mk i doc dir => by
    have ih := downloadAll_inv i.Id (path.Join [d, cleanName i.Name]) dir
    rw [processFile]
    split_ifs
    · exact ih
    · exact downloadDocument_inv _ _ _ _
    · exact downloadDocument_inv _ _ _ _
    · exact downloadDocument_inv _ _ _ _
    · exact ⟨fun _ => allOk_nil, failsLast_nil, fun h => absurd rfl h⟩
end

theorem callback_append (d : List Char) (pre cs : List Child)
    (h : (callback d pre).2 = .returned none) :
    callback d (pre ++ cs) = ((callback d pre).1 ++ (callback d cs).1, (callback d cs).2) := by
  induction pre with
  | nil => simp [callback]
  | cons c rest ih =>
    rw [callback] at h
    rw [List.cons_append, callback, callback]
    split at h
    · rename_i hc
      simp only [hc]
      rw [ih h, List.append_assoc]
    · simp at h
    · simp at h

theorem callback_cons_ok (d : List Char) (c : Child) (cs : List Child)
    (h : (processFile d c).2 = .returned none) :
    callback d (c :: cs) = ((processFile d c).1 ++ (callback d cs).1, (callback d cs).2) := by
  rw [callback]
  simp only [h]

theorem callback_cons_fail (d : List Char) (c : Child) (cs : List Child)
    (h : (processFile d c).2 ≠ .returned none) :
    callback d (c :: cs) = processFile d c := by
  rw [callback]
  split
  · rename_i hc
    exact absurd hc h
  · rename_i e hc
    rw [← hc]
  · rename_i hc
    rw [← hc]

theorem Pages_page_fail (id d : List Char) (files : List Child) (next : Option Listing)
    (h : (callback d files).2 ≠ .returned none) :
    Pages id d (.page files next) = (.list id true :: (callback d files).1, (callback d files).2) := by
  cases next with
  | none =>
    rw [Pages]
    split
    · rename_i hc
      exact absurd hc h
    · rename_i e hc
      rw [← hc]
    · rename_i hc
      rw [← hc]
  | some l =>
    rw [Pages]
    split
    · rename_i hc
      exact absurd hc h
    · rename_i e hc
      rw [← hc]
    · rename_i hc
      rw [← hc]

theorem downloadAll_returned_error (id d : List Char) (w : Folder) (e : Err)
    (h : (downloadAll id d w).2 = .returned (some e)) :
    (downloadAll id d w).1 = [.mkdirAll d false] := by
  obtain ⟨mkdirOk, listing⟩ := w
  rw [downloadAll] at h ⊢
  cases mkdirOk with
  | false => rfl
  | true =>
    simp only [Bool.not_true, Bool.false_eq_true, if_false] at h ⊢
    split at h <;> simp at h

theorem processFile_skip (d : List Char) (i : File) (doc : DocAnswer) (dir : Folder)
    (h1 : i.MimeType ≠ folderType) (h2 : i.MimeType ≠ documentType)
    (h3 : i.MimeType ≠ spreadsheetType) (h4 : i.MimeType ≠ presentationType) :
    processFile d (.mk i doc dir) = ([], .returned none) := by
  rw [processFile, if_neg h1, if_neg h2, if_neg h3, if_neg h4]

theorem callback_skip (d : List Char) (c : Child) (pre post : List Child)
    (h : processFile d c = ([], .returned none)) :
    callback d (pre ++ c :: post) = callback d (pre ++ post) := by
  induction pre with
  | nil =>
    rw [List.nil_append, List.nil_append, callback]
    simp only [h, List.nil_append]
  | cons x xs ih =>
    rw [List.cons_append, List.cons_append, callback, callback, ih]

theorem processFile_document (d : List Char) (i : File) (doc : DocAnswer) (dir : Folder)
    (h : i.MimeType = documentType) :
    processFile d (.mk i doc dir)
      = ((downloadDocument i.Id (path.Join [d, cleanName i.Name ++ ".docx".toList])
            docxMime doc).1,
         .returned (downloadDocument i.Id (path.Join [d, cleanName i.Name ++ ".docx".toList])
            docxMime doc).2) := by
  have h1 : i.MimeType ≠ folderType := by rw [h]; decide
  rw [processFile, if_neg h1, if_pos h]

theorem processFile_spreadsheet (d : List Char) (i : File) (doc : DocAnswer) (dir : Folder)
    (h : i.MimeType = spreadsheetType) :
    processFile d (.mk i doc dir)
      = ((downloadDocument i.Id (path.Join [d, cleanName i.Name ++ ".xlsx".toList])
            xlsxMime doc).1,
         .returned (downloadDocument i.Id (path.Join [d, cleanName i.Name ++ ".xlsx".toList])
            xlsxMime doc).2) := by
  have h1 : i.MimeType ≠ folderType := by rw [h]; decide
  have h2 : i.MimeType ≠ documentType := by rw [h]; decide
  rw [processFile, if_neg h1, if_neg h2, if_pos h]

theorem processFile_presentation (d : List Char) (i : File) (doc : DocAnswer) (dir : Folder)
    (h : i.MimeType = presentationType) :
    processFile d (.mk i doc dir)
      = ((downloadDocument i.Id (path.Join [d, cleanName i.Name ++ ".pptx".toList])
            pptxMime doc).1,
         .returned (downloadDocument i.Id (path.Join [d, cleanName i.Name ++ ".pptx".toList])
            pptxMime doc).2) := by
  have h1 : i.MimeType ≠ folderType := by rw [h]; decide
  have h2 : i.MimeType ≠ documentType := by rw [h]; decide
  have h3 : i.MimeType ≠ spreadsheetType := by rw [h]; decide
  rw [processFile, if_neg h1, if_neg h2, if_neg h3, if_pos h]

theorem processFile_folder (d : List Char) (i : File) (doc : DocAnswer) (dir : Folder)
    (h : i.MimeType = folderType) :
    processFile d (.mk i doc dir)
      = downloadAll i.Id (path.Join [d, cleanName i.Name]) dir := by
  rw [processFile, if_pos h]

/-- The calls of `downloadDocument`: exactly one export, of the given id and
MIME type; when it yields a body, `os.Create` of the target; when that
succeeds, the write of the body to the target. -/
theorem downloadDocument_trace (id name mime : List Char) (w : DocAnswer) :
    (downloadDocument id name mime w).1.filter Event.isExport
      = [.export id mime w.body.isSome] ∧
    (∀ body, w.body = some body → w.createOk = true → w.writeOk = true →
      downloadDocument id name mime w
        = ([.export id mime true, .create name true, .write name body true], none)) := by
  constructor
  · unfold downloadDocument
    cases hb : w.body with
    | none => rfl
    | some body =>
      simp only
      split_ifs <;> rfl
  · intro body hb hc hw
    unfold downloadDocument
    rw [hb]
    simp [hc, hw]

theorem downloadAll_trace (id d : List Char) (l : Listing) :
    (downloadAll id d (.mk true l)).1 = .mkdirAll d true :: (Pages id d l).1 := by
  rw [downloadAll]
  simp only [Bool.not_true, Bool.false_eq_true, if_false]
  split <;> rfl

theorem Pages_page_trace (id d : List Char) (files : List Child) (next : Option Listing) :
    ∃ tail, (Pages id d (.page files next)).1 = .list id true :: ((callback d files).1 ++ tail) := by
  cases next with
  | none =>
    rw [Pages]
    split
    · exact ⟨[], by simp⟩
    · exact ⟨[], by simp⟩
    · exact ⟨[], by simp⟩
  | some l =>
    rw [Pages]
    split
    · exact ⟨(Pages id d l).1, rfl⟩
    · exact ⟨[], by simp⟩
    · exact ⟨[], by simp⟩

theorem callback_cons_trace (d : List Char) (c : Child) (cs : List Child) :
    ∃ tail, (callback d (c :: cs)).1 = (processFile d c).1 ++ tail := by
  rw [callback]
  split
  · exact ⟨(callback d cs).1, rfl⟩
  · exact ⟨[], by simp⟩
  · exact ⟨[], by simp⟩

theorem downloadDocument_head (id name mime : List Char) (w : DocAnswer) :
    ∃ tail, (downloadDocument id name mime w).1 = .export id mime w.body.isSome :: tail := by
  unfold downloadDocument
  cases hb : w.body with
  | none => exact ⟨[], rfl⟩
  | some body =>
    simp only
    split_ifs
    · exact ⟨_, rfl⟩
    · exact ⟨_, rfl⟩
    · exact ⟨_, rfl⟩

/-! ### The claims about the name sanitizer as a path segment -/

/-- C1 (as stated, refuted): a display name made of two dots is returned
unchanged by `cleanName`, and joined to `a/b` it denotes `a`, the parent of the
destination; a display name made of one space is cleaned to the empty string,
and joined to `a/b` it denotes `a/b` itself; a single dot also stays. -/
theorem cleanName_dot_names_escape :
    cleanName "..".toList = "..".toList ∧
    path.Join ["a/b".toList, cleanName "..".toList] = "a".toList ∧
    cleanName " ".toList = [] ∧
    path.Join ["a/b".toList, cleanName " ".toList] = "a/b".toList ∧
    cleanName ".".toList = ".".toList ∧
    path.Join ["a/b".toList, cleanName ".".toList] = "a/b".toList := by
  decide

/-- C1 (amended): for every display name `n`, `cleanName n` contains no path
separator (neither `/` nor `\`); and whenever it is non-empty and is neither
`.` nor `..`, then for every directory `d` the path `path.Join(d, cleanName n)`
is the cleaned `d` extended by exactly the segment `cleanName n`, a direct
child of `d`: the segment itself when `d` cleans to `.`, the segment under the
root when `d` cleans to `/`, and `Clean(d) + "/" + cleanName n` otherwise. -/
theorem cleanName_path_segment (n d : List Char) :
    '/' ∉ cleanName n ∧ '\\' ∉ cleanName n ∧
    (cleanName n ≠ [] → cleanName n ≠ ['.'] → cleanName n ≠ ['.', '.'] →
      path.Join [d, cleanName n]
        = (if path.Clean d = ['.'] then []
            else if path.Clean d = ['/'] then ['/']
            else path.Clean d ++ ['/']) ++ cleanName n) := by
  have hs : '/' ∉ cleanName n := cleanName_not_mem n '/' (by decide)
  exact ⟨hs, cleanName_not_mem n '\\' (by decide),
    fun h1 h2 h3 => path_Join_element d (cleanName n) h1 hs h2 h3⟩

/-- C1, witness: the folder name `Q1: Plans/2024` under `dest/sub/..` becomes
the single segment `Q1_ Plans_2024` directly under `dest`. -/
theorem cleanName_path_segment_witness :
    cleanName "Q1: Plans/2024".toList = "Q1_ Plans_2024".toList ∧
    path.Clean "dest/sub/..".toList = "dest".toList ∧
    path.Join ["dest/sub/..".toList, cleanName "Q1: Plans/2024".toList]
      = (if path.Clean "dest/sub/..".toList = ['.'] then []
          else if path.Clean "dest/sub/..".toList = ['/'] then ['/']
          else path.Clean "dest/sub/..".toList ++ ['/'])
        ++ cleanName "Q1: Plans/2024".toList :=
  ⟨by decide, by decide,
    (cleanName_path_segment "Q1: Plans/2024".toList "dest/sub/..".toList).2.2
      (by decide) (by decide) (by decide)⟩

/-! ### The claims about the tree walker -/

/-- C5 (the code at the failing input): in a root whose single document cannot
be exported, the export fails and `downloadAll` does not return the error to
its caller, as the claim says it must and as the `os.MkdirAll` path of the same
function does: the `log.Fatalf` of line 118 terminates the process inside
`downloadAll`. -/
theorem downloadAll_export_failure_not_returned :
    downloadAll "root".toList "dest".toList exportFailWorld
      = ([.mkdirAll "dest".toList true, .list "root".toList true,
          .export "d1".toList docxMime false], .exited) ∧
    ¬ ∃ e, (downloadAll "root".toList "dest".toList exportFailWorld).2
        = .returned (some e) := by
  refine ⟨by decide, ?_⟩
  rintro ⟨e, he⟩
  have h : (downloadAll "root".toList "dest".toList exportFailWorld).2 = .exited := by
    decide
  rw [h] at he
  cases he

/-- The defect behind C5 on every input: whenever an export call fails during
`downloadAll`, at any recursion depth, the error that the callback returns is
caught by the `log.Fatalf` of line 118 and the process is terminated; the
error is never returned to the caller of `downloadAll`. -/
theorem downloadAll_export_failure_exits (downloadId destinationPath : List Char)
    (w : Folder) (id mime : List Char)
    (h : Event.export id mime false ∈ (downloadAll downloadId destinationPath w).1) :
    (downloadAll downloadId destinationPath w).2 = .exited := by
  have hinv := downloadAll_inv downloadId destinationPath w
  cases ho : (downloadAll downloadId destinationPath w).2 with
  | exited => rfl
  | returned err =>
    cases err with
    | none =>
      have := hinv.1 ho _ h
      simp [Event.ok] at this
    | some e =>
      rw [downloadAll_returned_error downloadId destinationPath w e ho] at h
      simp at h

/-- The same defect two levels down, in `failingWorld`. -/
theorem downloadAll_export_failure_exits_witness :
    Event.export "d1".toList docxMime false
        ∈ (downloadAll "root".toList "dest".toList failingWorld).1 ∧
    (downloadAll "root".toList "dest".toList failingWorld).2 = .exited :=
  ⟨by decide,
    downloadAll_export_failure_exits "root".toList "dest".toList failingWorld
      "d1".toList docxMime (by decide)⟩

/-- C6: abort on error.  In every run of `downloadAll` a failed call (directory
creation, page request, export, file creation, file write, at any depth) is the
last call of the whole run.  A child whose processing does not return `nil`
ends with a failed call, and no later sibling is processed; a page whose
callback does not return `nil` is the last page requested. -/
theorem downloadAll_abort_on_error :
    (∀ (id d : List Char) (w : Folder) (pre : List Event) (e : Event) (post : List Event),
      (downloadAll id d w).1 = pre ++ e :: post → e.ok = false → post = []) ∧
    (∀ (d : List Char) (c : Child), (processFile d c).2 ≠ .returned none →
      (∃ pre e, (processFile d c).1 = pre ++ [e] ∧ e.ok = false) ∧
      ∀ rest, callback d (c :: rest) = processFile d c) ∧
    (∀ (id d : List Char) (files : List Child) (next : Option Listing),
      (callback d files).2 ≠ .returned none →
      Pages id d (.page files next)
        = (.list id true :: (callback d files).1, (callback d files).2)) :=
  ⟨fun id d w => (downloadAll_inv id d w).2.1,
    fun d c h => ⟨(processFile_inv d c).2.2 h, fun rest => callback_cons_fail d c rest h⟩,
    fun id d files next h => Pages_page_fail id d files next h⟩

/-- C6, witness: in `failingWorld` the export of `one` fails inside folder `A`;
the whole run ends with that call, before `two`, `three` and the second page,
and the callback of folder `A` makes no call for `two`. -/
theorem downloadAll_abort_on_error_witness :
    downloadAll "root".toList "dest".toList failingWorld
      = ([.mkdirAll "dest".toList true, .list "root".toList true,
          .mkdirAll "dest/A".toList true, .list "fa".toList true,
          .export "d1".toList docxMime false], .exited) ∧
    callback "dest/A".toList [docOne, docTwo] = processFile "dest/A".toList docOne :=
  ⟨by decide,
    (downloadAll_abort_on_error.2.1 "dest/A".toList docOne (by decide)).2 [docTwo]⟩

/-- C7: a child of type document, spreadsheet or presentation (a row of
`exportTable`) found in a folder whose directory is `d` makes `downloadAll`
issue exactly one export of its id, with the MIME type of its row; when the
export yields a body and the file can be created and written, the calls are
that export, `os.Create` of `path.Join(d, cleanName(name) + extension)` and the
write of the body to that path, and the child returns `nil`.  The rows differ
pairwise in the type tag, in the extension and in the MIME type.  For the root
holding the folder `Reports` and the document `Q1 Plan` the run makes the
directories `dest` and `dest/Reports`, lists both folders, exports `Q1 Plan`
as wordprocessingml and writes the returned bytes to `dest/Q1 Plan.docx`,
and nothing else. -/
theorem processFile_export_table :
    (∀ (d : List Char) (i : File) (doc : DocAnswer) (dir : Folder)
        (row : List Char × List Char × List Char),
      row ∈ exportTable → i.MimeType = row.1 →
      ((processFile d (.mk i doc dir)).1.filter Event.isExport
          = [.export i.Id row.2.2 doc.body.isSome]) ∧
      (∀ body, doc.body = some body → doc.createOk = true → doc.writeOk = true →
        processFile d (.mk i doc dir)
          = ([.export i.Id row.2.2 true,
              .create (path.Join [d, cleanName i.Name ++ row.2.1]) true,
              .write (path.Join [d, cleanName i.Name ++ row.2.1]) body true],
             .returned none))) ∧
    (exportTable.map (fun row => row.1)).Nodup ∧
    (exportTable.map (fun row => row.2.1)).Nodup ∧
    (exportTable.map (fun row => row.2.2)).Nodup ∧
    downloadAll "root".toList "dest".toList reportsWorld
      = ([.mkdirAll "dest".toList true, .list "root".toList true,
          .mkdirAll "dest/Reports".toList true, .list "f1".toList true,
          .export "d1".toList docxMime true,
          .create "dest/Q1 Plan.docx".toList true,
          .write "dest/Q1 Plan.docx".toList [80, 75, 3, 4] true], .returned none) := by
  refine ⟨?_, by decide, by decide, by decide, by decide⟩
  intro d i doc dir row hrow hty
  simp only [exportTable, List.mem_cons, List.mem_singleton, List.mem_nil_iff, or_false]
    at hrow
  rcases hrow with rfl | rfl | rfl
  · rw [processFile_document d i doc dir hty]
    refine ⟨(downloadDocument_trace _ _ _ _).1, fun body hb hc hw => ?_⟩
    rw [(downloadDocument_trace _ _ _ _).2 body hb hc hw]
  · rw [processFile_spreadsheet d i doc dir hty]
    refine ⟨(downloadDocument_trace _ _ _ _).1, fun body hb hc hw => ?_⟩
    rw [(downloadDocument_trace _ _ _ _).2 body hb hc hw]
  · rw [processFile_presentation d i doc dir hty]
    refine ⟨(downloadDocument_trace _ _ _ _).1, fun body hb hc hw => ?_⟩
    rw [(downloadDocument_trace _ _ _ _).2 body hb hc hw]

/-- C7, witness: the document `Q1 Plan` in the directory `dest`. -/
theorem processFile_export_table_witness :
    processFile "dest".toList
        (.mk ⟨"d1".toList, "Q1 Plan".toList, documentType⟩ ⟨some [80, 75, 3, 4], true, true⟩
          emptyDir)
      = ([.export "d1".toList docxMime true,
          .create (path.Join ["dest".toList, cleanName "Q1 Plan".toList ++ ".docx".toList]) true,
          .write (path.Join ["dest".toList, cleanName "Q1 Plan".toList ++ ".docx".toList])
            [80, 75, 3, 4] true],
         .returned none) :=
  (processFile_export_table.1 "dest".toList ⟨"d1".toList, "Q1 Plan".toList, documentType⟩
    ⟨some [80, 75, 3, 4], true, true⟩ emptyDir (documentType, ".docx".toList, docxMime)
    (by decide) rfl).2 [80, 75, 3, 4] rfl rfl rfl

/-- C8: a child whose type tag is none of folder, document, spreadsheet and
presentation makes no call at all and returns `nil`; the callback, the paging
loop and `downloadAll` give the same calls and the same outcome as for the
listing without that child, wherever in the page it stands. -/
theorem processFile_skip_unknown (d : List Char) (i : File) (doc : DocAnswer) (dir : Folder)
    (h1 : i.MimeType ≠ folderType) (h2 : i.MimeType ≠ documentType)
    (h3 : i.MimeType ≠ spreadsheetType) (h4 : i.MimeType ≠ presentationType) :
    processFile d (.mk i doc dir) = ([], .returned none) ∧
    (∀ pre post : List Child,
      callback d (pre ++ .mk i doc dir :: post) = callback d (pre ++ post)) ∧
    (∀ (id : List Char) (pre post : List Child) (next : Option Listing),
      Pages id d (.page (pre ++ .mk i doc dir :: post) next)
        = Pages id d (.page (pre ++ post) next)) ∧
    (∀ (id : List Char) (mkdirOk : Bool) (pre post : List Child) (next : Option Listing),
      downloadAll id d (.mk mkdirOk (.page (pre ++ .mk i doc dir :: post) next))
        = downloadAll id d (.mk mkdirOk (.page (pre ++ post) next))) := by
  have hs := processFile_skip d i doc dir h1 h2 h3 h4
  have hp : ∀ (id : List Char) (pre post : List Child) (next : Option Listing),
      Pages id d (.page (pre ++ .mk i doc dir :: post) next)
        = Pages id d (.page (pre ++ post) next) := by
    intro id pre post next
    cases next with
    | none => rw [Pages, Pages, callback_skip d _ pre post hs]
    | some l => rw [Pages, Pages, callback_skip d _ pre post hs]
  refine ⟨hs, fun pre post => callback_skip d _ pre post hs, hp, ?_⟩
  intro id mkdirOk pre post next
  rw [downloadAll, downloadAll, hp id pre post next]

/-- C8, witness: a PDF listed between `FolderA` and `DocB`. -/
theorem processFile_skip_unknown_witness :
    processFile "dest".toList pdfChild = ([], .returned none) ∧
    callback "dest".toList ([folderA] ++ pdfChild :: [docB])
      = callback "dest".toList ([folderA] ++ [docB]) :=
  ⟨(processFile_skip_unknown "dest".toList ⟨"p1".toList, "scan".toList, "application/pdf".toList⟩
      noDoc (.mk false .fail) (by decide) (by decide) (by decide) (by decide)).1,
    (processFile_skip_unknown "dest".toList ⟨"p1".toList, "scan".toList, "application/pdf".toList⟩
      noDoc (.mk false .fail) (by decide) (by decide) (by decide) (by decide)).2.1
        [folderA] [docB]⟩

/-- C9: depth-first order.  When the children before `c` in a page have been
processed without error, the calls of the callback are the calls for those
children, then all calls for `c` (for a folder: the whole run of `downloadAll`
on its subtree), and only then the calls for the children after `c`.  In
particular for a root page `[FolderA, DocB]`: when the run on `FolderA` returns
`nil`, the export of `DocB` comes directly after the complete run on
`FolderA`. -/
theorem callback_depth_first (d : List Char) :
    (∀ (pre : List Child) (c : Child) (post : List Child),
      (callback d pre).2 = .returned none →
      (callback d (pre ++ c :: post)).1
        = (callback d pre).1 ++ (processFile d c).1
            ++ (if (processFile d c).2 = .returned none then (callback d post).1 else [])) ∧
    (∀ (rootId : List Char) (a b : File) (docA docB : DocAnswer) (dirA dirB : Folder)
        (next : Option Listing),
      a.MimeType = folderType → b.MimeType = documentType →
      (downloadAll a.Id (path.Join [d, cleanName a.Name]) dirA).2 = .returned none →
      ∃ rest,
        (downloadAll rootId d (.mk true (.page [.mk a docA dirA, .mk b docB dirB] next))).1
          = .mkdirAll d true :: .list rootId true ::
              ((downloadAll a.Id (path.Join [d, cleanName a.Name]) dirA).1
                ++ .export b.Id docxMime docB.body.isSome :: rest)) := by
  constructor
  · intro pre c post h
    rw [callback_append d pre (c :: post) h]
    simp only
    by_cases hc : (processFile d c).2 = .returned none
    · rw [callback_cons_ok d c post hc, if_pos hc, List.append_assoc]
    · rw [callback_cons_fail d c post hc, if_neg hc, List.append_nil]
  · intro rootId a b docA docB dirA dirB next ha hb hok
    obtain ⟨t1, ht1⟩ := Pages_page_trace rootId d [.mk a docA dirA, .mk b docB dirB] next
    have hA : (processFile d (.mk a docA dirA)).2 = .returned none := by
      rw [processFile_folder d a docA dirA ha]
      exact hok
    obtain ⟨t2, ht2⟩ := callback_cons_trace d (.mk b docB dirB) []
    obtain ⟨t3, ht3⟩ := downloadDocument_head b.Id
      (path.Join [d, cleanName b.Name ++ ".docx".toList]) docxMime docB
    refine ⟨t3 ++ t2 ++ t1, ?_⟩
    rw [downloadAll_trace, ht1, callback_cons_ok d _ _ hA, processFile_folder d a docA dirA ha]
    simp only
    rw [ht2, processFile_document d b docB dirB hb]
    simp only
    rw [ht3]
    simp [List.append_assoc]

/-- C9, witness: `FolderA` (one spreadsheet) and `DocB` in one page. -/
theorem callback_depth_first_witness :
    (callback "dest".toList ([] ++ folderA :: [docB])).1
      = (callback "dest".toList []).1 ++ (processFile "dest".toList folderA).1
          ++ (if (processFile "dest".toList folderA).2 = .returned none
              then (callback "dest".toList [docB]).1 else []) ∧
    (callback "dest".toList [folderA, docB]).1
      = [.mkdirAll "dest/FolderA".toList true, .list "fa".toList true,
          .export "s1".toList xlsxMime true,
          .create "dest/FolderA/sheet.xlsx".toList true,
          .write "dest/FolderA/sheet.xlsx".toList [9] true,
          .export "db".toList docxMime true,
          .create "dest/DocB.docx".toList true,
          .write "dest/DocB.docx".toList [7] true] :=
  ⟨(callback_depth_first "dest".toList).1 [] folderA [docB] (by decide), by decide⟩

/-! ### The authorization flow -/

/-- C10 (the code on the failing inputs): whenever the listener and the browser
have started and the context is cancelled before any request with a code
arrived, `getTokenFromWeb` goes on to call `config.Exchange` with the empty
authorization code, and what it returns is what that exchange returns. -/
theorem getTokenFromWeb_cancelled_exchanges_empty_code (w : AuthWorld)
    (hl : w.listenOk = true) (hb : w.browserOk = true) (hs : w.serve = .cancelled) :
    (getTokenFromWeb w).1
      = [.listen true, .openBrowser true, .serve, .exchange [] (w.exchange []).isSome] ∧
    (getTokenFromWeb w).2
      = (match w.exchange [] with
          | none => .error .exchangeCode
          | some tok => .ok tok) := by
  unfold getTokenFromWeb
  simp only [hl, hb, hs, Bool.not_true, Bool.false_eq_true, if_false]
  cases w.exchange [] <;> exact ⟨rfl, rfl⟩

/-- C10, the failing input: with the cancelled context failing the exchange,
the error of `getTokenFromWeb` is the one of the exchange of the empty code,
and `GetService` writes no token file. -/
theorem getTokenFromWeb_cancelled_exchanges_empty_code_witness :
    (getTokenFromWeb cancelledWorld).1
      = [.listen true, .openBrowser true, .serve, .exchange [] false] ∧
    (getTokenFromWeb cancelledWorld).2 = .error .exchangeCode ∧
    GetService cancelledWorld "tokens".toList true false
      = ([.readSecret true, .readTokenFile "tokens/token-r.json".toList false,
          .listen true, .openBrowser true, .serve, .exchange [] false],
          .error .tokenFromWeb) :=
  ⟨(getTokenFromWeb_cancelled_exchanges_empty_code cancelledWorld rfl rfl rfl).1,
    (getTokenFromWeb_cancelled_exchanges_empty_code cancelledWorld rfl rfl rfl).2,
    rfl⟩

end GDriveExporter
